import Mathlib

/-!
Verification development for the GitHub PR simplifier content script
(`src/github-pr-simplifier/content.js`).  The reconstruction pipeline of
`createSimplifiedView` (classification, deduplication, commit grouping,
sorting), the relative-time humanizer `formatTimeAgo`, and the view
toggle `toggleView` are embedded shallowly below.  DOM reads are
abstracted into a `RawEntry` record holding the values the script
queries off one `.js-timeline-item`; host `Date` parsing is an oracle
parameter `parse : String -> Option Int` (`none` models an Invalid
Date, i.e. a NaN time value; `some ms` a valid millisecond value).
JavaScript string values are modelled by Lean `String`; JS string
equality is UTF-16 code-unit equality, which coincides with `String`
equality because surrogate code points are not valid `Char`s, so the
unit sequence determines the character sequence.
-/

namespace PRS

/-- JS `s.trim()`: drop leading and trailing whitespace.  Character-list
version of `String.trim` (extensionally the same operation) so that
concrete instances reduce inside the kernel. -/
def jsTrim (s : String) : String :=
  ⟨((s.data.dropWhile Char.isWhitespace).reverse.dropWhile Char.isWhitespace).reverse⟩

/-- UTF-16 size of a code point: astral-plane characters take two units. -/
def utf16Size (c : Char) : Nat := if c.toNat < 65536 then 1 else 2

/-- Take a prefix of at most `n` UTF-16 code units from a character list,
modelling JS `substring(0, n)`.  A character that would straddle the cut
is dropped (JS would keep a lone high surrogate there; no claim below
depends on that corner). -/
def takeUnits : Nat → List Char → List Char
  | _, [] => []
  | n, c :: cs => if utf16Size c ≤ n then c :: takeUnits (n - utf16Size c) cs else []

/-- JS `s.substring(0, n)`. -/
def jsSubstr (s : String) (n : Nat) : String := ⟨takeUnits n s.data⟩

/-- JS `s.includes(pat)`. -/
def jsIncludes (s pat : String) : Bool := decide (pat.data <:+: s.data)

/-- JS `s.endsWith(pat)`. -/
def jsEndsWith (s pat : String) : Bool := decide (pat.data <:+ s.data)

/-- The `relative-time` / `time-ago` element of a timeline item:
its `datetime` attribute (absent attribute modelled as `none`) and its
text content. -/
structure TimeEl where
  datetimeAttr : Option String
  text : String
deriving DecidableEq

/-- One raw timeline item, holding exactly the values
`createSimplifiedView` queries from the DOM node:
`isCommit` is the structural commit-marker test (badge octicon /
commit-list classes), `author` the text content of the author element
(`none` when no author element matches), `time` the timestamp element,
`body` the text content of the `.comment-body, .markdown-body` match,
`commentHTML` the `innerHTML` of the `.comment-body` match, and
`isReviewEl` whether a `.review-comment` descendant exists. -/
structure RawEntry where
  isCommit : Bool
  author : Option String
  time : Option TimeEl
  body : Option String
  commentHTML : Option String
  isReviewEl : Bool
deriving DecidableEq

/-- `timeText`: `timestamp?.getAttribute('datetime') || timestamp?.textContent || ''`
(JS `||` falls through on the empty string and on absent values). -/
def timeTextOf (e : RawEntry) : String :=
  match e.time with
  | none => ""
  | some t =>
    let d := t.datetimeAttr.getD ""
    if d ≠ "" then d else t.text

/-- `date: timestamp ? new Date(timeText) : new Date(0)`:
epoch zero when the timestamp element is absent, otherwise the host
parse of the time text (`none` = Invalid Date). -/
def dateOf (parse : String → Option Int) (e : RawEntry) : Option Int :=
  match e.time with
  | none => some 0
  | some _ => parse (timeTextOf e)

/-- The `author` local variable: `authorEl?.textContent?.trim()`. -/
def authorTrim (e : RawEntry) : Option String := e.author.map jsTrim

/-- The author component of the dedup key: template-literal interpolation
turns an `undefined` author into the string `"undefined"`. -/
def authorKey (e : RawEntry) : String :=
  match authorTrim e with
  | none => "undefined"
  | some a => a

/-- `hasTextContent`: a comment-body element exists and its trimmed text
is non-empty. -/
def hasText (e : RawEntry) : Bool :=
  match e.body with
  | none => false
  | some b => decide ((jsTrim b).length > 0)

/-- The `bodyText` local variable: `commentBody.textContent?.trim() || ''`. -/
def bodyTextOf (e : RawEntry) : String := jsTrim (e.body.getD "")

/-- The dedup `contentKey` template literal
`author + "-" + timeText + "-" + bodyText.substring(0, 100)`. -/
def contentKey (e : RawEntry) : String :=
  authorKey e ++ "-" ++ timeTextOf e ++ "-" ++ jsSubstr (bodyTextOf e) 100

/-- The fingerprint read as a triple, as the specification words it:
(author, raw timestamp string, first 100 characters of body text). -/
def fpTriple (e : RawEntry) : String × String × String :=
  (authorKey e, timeTextOf e, jsSubstr (bodyTextOf e) 100)

/-- `isFromAgenthelper`: body ends with `agenthelper`, or contains the
rendered marker `🤖 agenthelper`, or the `.comment-body` innerHTML
contains `agenthelper`. -/
def isFromAgenthelperOf (e : RawEntry) : Bool :=
  jsEndsWith (bodyTextOf e) "agenthelper" ||
  jsIncludes (bodyTextOf e) "🤖 agenthelper" ||
  (match e.commentHTML with
   | some h => jsIncludes h "agenthelper"
   | none => false)

/-- `isBotComment`: `author?.includes('[bot]') || author?.includes('bot')`. -/
def isBotCommentOf (e : RawEntry) : Bool :=
  match authorTrim e with
  | none => false
  | some a => jsIncludes a "[bot]" || jsIncludes a "bot"

/-- The non-overridden display author: `author || 'Unknown'`. -/
def rawAuthorDisplay (e : RawEntry) : String :=
  match authorTrim e with
  | none => "Unknown"
  | some a => if a = "" then "Unknown" else a

/-- `displayAuthor`: the fixed label when the agenthelper signature
fires, otherwise the page author with the `Unknown` fallback. -/
def displayAuthorOf (e : RawEntry) : String :=
  if isFromAgenthelperOf e then "agenthelper" else rawAuthorDisplay e

/-- The comment object pushed onto `orderedItems` (the cloned DOM
element is represented by the index back into the entry sequence). -/
structure CommentRec where
  author : String
  timestamp : String
  date : Option Int
  idx : Nat
  isBot : Bool
  isReview : Bool
deriving DecidableEq

/-- Build the comment record for entry `e` at page position `i`. -/
def mkComment (parse : String → Option Int) (e : RawEntry) (i : Nat) : CommentRec :=
  { author := displayAuthorOf e
    timestamp := timeTextOf e
    date := dateOf parse e
    idx := i
    isBot := isBotCommentOf e || isFromAgenthelperOf e
    isReview := e.isReviewEl }

/-- One element of `orderedItems`: a commit item (carrying its source
entry and page position) or a comment item. -/
inductive Item where
  | commit (e : RawEntry) (idx : Nat)
  | comment (c : CommentRec)
deriving DecidableEq

/-- Page position of an ordered item. -/
def itemIdx : Item → Nat
  | .commit _ i => i
  | .comment c => c.idx

/-- Is the item a comment item? -/
def isCommentItem : Item → Bool
  | .comment _ => true
  | _ => false

/-- Is the item a commit item? -/
def isCommitItem : Item → Bool
  | .commit _ _ => true
  | _ => false

/-- First pass of `createSimplifiedView` (the `timelineItems.forEach`):
commit classification wins, then non-empty-body entries become comment
items unless their `contentKey` is already in the seen set; `seen` is
the `seenCommentBodies` set and `i` the running page index. -/
def classifyGo (parse : String → Option Int) (seen : List String) (i : Nat) :
    List RawEntry → List Item
  | [] => []
  | e :: rest =>
    if e.isCommit then
      Item.commit e i :: classifyGo parse seen (i + 1) rest
    else if hasText e then
      if contentKey e ∈ seen then
        classifyGo parse seen (i + 1) rest
      else
        Item.comment (mkComment parse e i) :: classifyGo parse (contentKey e :: seen) (i + 1) rest
    else
      classifyGo parse seen (i + 1) rest

/-- The full first pass, starting from an empty seen set and index 0. -/
def classify (parse : String → Option Int) (es : List RawEntry) : List Item :=
  classifyGo parse [] 0 es

/-- A presentation turn: a comment plus the commits grouped under it. -/
structure Turn where
  c : CommentRec
  commits : List (RawEntry × Nat)
deriving DecidableEq

/-- Second pass of `createSimplifiedView` (the `orderedItems.forEach`):
a comment item starts a new turn and becomes `lastComment`; a commit
item is appended to the current turn's `followingCommits`, or dropped
when no comment has been seen yet.  `acc` holds the turns built so far
in reverse, so its head is `lastComment`. -/
def buildTurnsGo (acc : List Turn) : List Item → List Turn
  | [] => acc.reverse
  | Item.comment c :: rest => buildTurnsGo (⟨c, []⟩ :: acc) rest
  | Item.commit e i :: rest =>
    match acc with
    | [] => buildTurnsGo [] rest
    | t :: ts => buildTurnsGo (⟨t.c, t.commits ++ [(e, i)]⟩ :: ts) rest

/-- The grouping pass on a classified item list. -/
def buildTurns (items : List Item) : List Turn := buildTurnsGo [] items

/-- The leading run of commit items, as attached-commit pairs. -/
def leadCommits : List Item → List (RawEntry × Nat)
  | Item.commit e i :: rest => (e, i) :: leadCommits rest
  | _ => []

/-- Drop the leading run of commit items. -/
def skipLead : List Item → List Item
  | Item.commit _ _ :: rest => skipLead rest
  | l => l

/-- Structural restatement of the grouping pass: each comment item opens
a turn that absorbs the immediately following run of commit items. -/
def turnsOf : List Item → List Turn
  | [] => []
  | Item.commit _ _ :: rest => turnsOf rest
  | Item.comment c :: rest => ⟨c, leadCommits rest⟩ :: turnsOf (skipLead rest)
termination_by l => l.length
decreasing_by
  · exact Nat.lt_succ_of_le (Nat.le_refl _)
  · refine Nat.lt_succ_of_le ?_
    clear c
    induction rest with
    | nil => exact Nat.le_refl _
    | cons x xs ih =>
      cases x with
      | commit e i => exact Nat.le_trans (by simpa [skipLead] using ih) (Nat.le_succ _)
      | comment c => exact Nat.le_refl _

/-- The sort comparator `(a, b) => b.date - a.date`; a NaN result is
treated as `0` by the host sort (ECMAScript SortCompare). -/
def jsCmp (a b : Option Int) : Int :=
  match a, b with
  | some x, some y => y - x
  | _, _ => 0

/-- `a` may be placed before `b`: the comparator does not order `b`
strictly first. -/
def turnLe (a b : Turn) : Bool := decide (jsCmp a.c.date b.c.date ≤ 0)

/-- Stable insertion into a sorted list: `a` goes before the first
element it may precede. -/
def sInsert (le : α → α → Bool) (a : α) : List α → List α
  | [] => [a]
  | b :: l => if le a b then a :: b :: l else b :: sInsert le a l

/-- Stable sort.  The host `Array.prototype.sort` is required to be
stable (ES2019), and for a consistent comparator every stable sort
produces the same list, so this models `comments.sort(...)` exactly on
inputs whose dates are all valid. -/
def sSort (le : α → α → Bool) : List α → List α
  | [] => []
  | a :: l => sInsert le a (sSort le l)

/-- The turn list as presented: classified, grouped, then sorted
newest-first. -/
def pipelineTurns (parse : String → Option Int) (es : List RawEntry) : List Turn :=
  sSort turnLe (buildTurns (classify parse es))

/-- The value `formatTimeAgo` renders: the humanized relative-time
strings, or `localeDate d` for the final `toLocaleDateString` branch
(which prints a short absolute date, and the fixed invalid-date string
when `d` is `none`). -/
inductive RenderedTime where
  | blank
  | justNow
  | minsAgo (n : Int)
  | hoursAgo (n : Int)
  | daysAgo (n : Int)
  | localeDate (d : Option Int)
deriving DecidableEq

/-- `formatTimeAgo(date)` at reference time `now`.  A `none` date is the
Invalid Date: its time value is NaN, so the `getTime() === 0` guard and
every range comparison are false and control reaches the
`toLocaleDateString` return. -/
def formatTimeAgo (now : Int) (date : Option Int) : RenderedTime :=
  match date with
  | none => .localeDate none
  | some t =>
    if t = 0 then .blank
    else
      let diffMs := now - t
      let diffMins := Int.fdiv diffMs 60000
      let diffHours := Int.fdiv diffMs 3600000
      let diffDays := Int.fdiv diffMs 86400000
      if diffMins < 1 then .justNow
      else if diffMins < 60 then .minsAgo diffMins
      else if diffHours < 24 then .hoursAgo diffHours
      else if diffDays < 7 then .daysAgo diffDays
      else .localeDate (some t)

/-- One tab button of the tab strip. -/
structure TabBtn where
  author : String
  time : RenderedTime
  active : Bool
deriving DecidableEq

/-- One content panel: the turn's comment, its attached commits, the
commit-count header when commits exist, and the active flag. -/
structure Panel where
  comment : CommentRec
  commits : List (RawEntry × Nat)
  commitsHeader : Option String
  active : Bool
deriving DecidableEq

/-- The synthesized container contents. -/
structure RenderedView where
  tabs : List TabBtn
  panels : List Panel
  placeholder : Option String
  toggleLabel : String
deriving DecidableEq

/-- The `${len} commit${len > 1 ? 's' : ''} after this comment` header. -/
def commitsHeaderOf (commits : List (RawEntry × Nat)) : Option String :=
  if commits.length > 0 then
    some (toString commits.length ++ " commit" ++
      (if commits.length > 1 then "s" else "") ++ " after this comment")
  else none

/-- The tab-strip / panel construction loop plus the empty-list
placeholder branch of `createSimplifiedView`. -/
def renderView (now : Int) (turns : List Turn) : RenderedView :=
  { tabs := turns.enum.map fun p =>
      { author := p.2.c.author
        time := formatTimeAgo now p.2.c.date
        active := decide (p.1 = 0) }
    panels := turns.enum.map fun p =>
      { comment := p.2.c
        commits := p.2.commits
        commitsHeader := commitsHeaderOf p.2.commits
        active := decide (p.1 = 0) }
    placeholder := if turns.length = 0 then some "No comments yet" else none
    toggleLabel := "Show Original View" }

/-- The whole reconstruction: pipeline then presenter. -/
def renderPR (parse : String → Option Int) (now : Int) (es : List RawEntry) :
    RenderedView :=
  renderView now (pipelineTurns parse es)

/-- The view-toggle state: the module flag `isSimplified`, the two
visibility attributes and the toggle label it mutates, plus the data it
must not touch (the original discussion content, the presenter's active
tab, and the saved pre-hide display value). -/
structure ViewState where
  isSimplified : Bool
  tabsDisplay : String
  discussionDisplay : String
  toggleLabel : String
  discussionContent : String
  activeTab : Nat
  savedDisplay : String
deriving DecidableEq

/-- `toggleView`: flips between showing the simplified tabs and the
original discussion, updating only the two display attributes, the
button label and the flag. -/
def toggleView (s : ViewState) : ViewState :=
  if s.isSimplified then
    { s with tabsDisplay := "none", discussionDisplay := "",
             toggleLabel := "Show Simplified View", isSimplified := false }
  else
    { s with tabsDisplay := "", discussionDisplay := "none",
             toggleLabel := "Show Original View", isSimplified := true }

/-- The view state right after a reconstruction completes: the original
discussion hidden, the tabs visible, label `Show Original View`, and
`isSimplified` set. -/
def reconState (content prevDisplay : String) (tab : Nat) : ViewState :=
  { isSimplified := true
    tabsDisplay := ""
    discussionDisplay := "none"
    toggleLabel := "Show Original View"
    discussionContent := content
    activeTab := tab
    savedDisplay := prevDisplay }

/-- Entry is a comment candidate before deduplication: not a commit and
carrying non-empty body text. -/
def candP (e : RawEntry) : Bool := !e.isCommit && hasText e

/-- A parse oracle that fails on every string (every time text is
unparsable, as JS `new Date("N/A")`). -/
def parseNone : String → Option Int := fun _ => none

/-- A concrete parse oracle for witnesses: `"A"` and `"B"` are valid
timestamps, everything else is unparsable. -/
def parseW : String → Option Int := fun s =>
  if s = "A" then some 1000 else if s = "B" then some 2000 else none

/-- A bare commit-event entry. -/
def entC : RawEntry := ⟨true, none, none, none, none, false⟩

/-- A commit-event entry that also carries body text. -/
def entCb : RawEntry := ⟨true, some "bob", none, some "pushed stuff", none, false⟩

/-- A comment entry by alice at time `"A"`. -/
def entA : RawEntry := ⟨false, some "alice", some ⟨some "A", ""⟩, some "lgtm", none, false⟩

/-- A comment entry by bob at time `"B"`. -/
def entB : RawEntry := ⟨false, some "bob", some ⟨some "B", ""⟩, some "nice", none, false⟩

/-- A comment entry whose timestamp element is present but whose time
text `"N/A"` is unparsable. -/
def entNA : RawEntry := ⟨false, some "bob", some ⟨some "N/A", ""⟩, some "hello", none, false⟩

/-- A comment entry whose timestamp element is absent. -/
def entNoTime : RawEntry := ⟨false, some "carol", none, some "hi there", none, false⟩

/-- A comment whose body ends with the raw signature form
`🤖 *agenthelper*` and whose item has no `.comment-body` innerHTML. -/
def entStar : RawEntry := ⟨false, some "alice", none, some "done 🤖 *agenthelper*", none, false⟩

/-- A comment whose body contains the rendered signature `🤖 agenthelper`. -/
def entSig : RawEntry := ⟨false, some "alice", none, some "sig 🤖 agenthelper", none, false⟩

/-- The same signed body as `entSig` but page-attributed to bob. -/
def entSigB : RawEntry := ⟨false, some "bob", none, some "sig 🤖 agenthelper", none, false⟩

/-- A comment by a `[bot]`-named author without the body signature. -/
def entBot : RawEntry := ⟨false, some "dep[bot]", none, some "bump deps", none, false⟩

/-- Fingerprint collision witness: author `"x-"`, no timestamp, body `"y"`. -/
def entKa : RawEntry := ⟨false, some "x-", none, some "y", none, false⟩

/-- Fingerprint collision witness: author `"x"`, no timestamp, body `"-y"`;
its fingerprint triple differs from `entKa`'s but the concatenated
dedup key is the same string `x---y`. -/
def entKb : RawEntry := ⟨false, some "x", none, some "-y", none, false⟩

/-- Two comments sharing the valid timestamp `"A"` by different authors,
for the sort-stability witness. -/
def entA2 : RawEntry := ⟨false, some "dave", some ⟨some "A", ""⟩, some "also lgtm", none, false⟩

section SortLemmas

variable {α : Type} (le : α → α → Bool)

theorem mem_sInsert {a x : α} {l : List α} : x ∈ sInsert le a l ↔ x = a ∨ x ∈ l := by
  induction l with
  | nil => simp [sInsert]
  | cons b l ih =>
    simp only [sInsert]
    split
    · simp [List.mem_cons]
    · simp only [List.mem_cons, ih]
      tauto

theorem mem_sSort {x : α} {l : List α} : x ∈ sSort le l ↔ x ∈ l := by
  induction l with
  | nil => simp [sSort]
  | cons a l ih => simp [sSort, mem_sInsert, ih]

theorem pairwise_sInsert {a : α} {l : List α}
    (htot : ∀ b ∈ l, le a b = true ∨ le b a = true)
    (htr : ∀ b ∈ l, ∀ c ∈ l, le a b = true → le b c = true → le a c = true)
    (hl : l.Pairwise (fun x y => le x y = true)) :
    (sInsert le a l).Pairwise (fun x y => le x y = true) := by
  induction l with
  | nil => simp [sInsert]
  | cons b l ih =>
    rw [List.pairwise_cons] at hl
    obtain ⟨hbl, hl'⟩ := hl
    simp only [sInsert]
    split
    next hab =>
      refine List.pairwise_cons.2 ⟨?_, List.pairwise_cons.2 ⟨hbl, hl'⟩⟩
      intro y hy
      rcases List.mem_cons.1 hy with rfl | hyl
      · exact hab
      · exact htr b (by simp) y (by simp [hyl]) hab (hbl y hyl)
    next hab =>
      have hba : le b a = true := by
        rcases htot b (by simp) with h | h
        · exact absurd h hab
        · exact h
      refine List.pairwise_cons.2 ⟨?_, ?_⟩
      · intro y hy
        rcases (mem_sInsert le).1 hy with rfl | hyl
        · exact hba
        · exact hbl y hyl
      · exact ih (fun c hc => htot c (by simp [hc]))
          (fun c hc d hd => htr c (by simp [hc]) d (by simp [hd])) hl'

theorem pairwise_sSort {l : List α}
    (htot : ∀ a ∈ l, ∀ b ∈ l, le a b = true ∨ le b a = true)
    (htr : ∀ a ∈ l, ∀ b ∈ l, ∀ c ∈ l, le a b = true → le b c = true → le a c = true) :
    (sSort le l).Pairwise (fun x y => le x y = true) := by
  induction l with
  | nil => exact List.Pairwise.nil
  | cons a l ih =>
    simp only [sSort]
    refine pairwise_sInsert le ?_ ?_
      (ih (fun x hx y hy => htot x (by simp [hx]) y (by simp [hy]))
        (fun x hx y hy z hz => htr x (by simp [hx]) y (by simp [hy]) z (by simp [hz])))
    · intro b hb
      exact htot a (by simp) b (by simp [(mem_sSort le).1 hb])
    · intro b hb c hc
      exact htr a (by simp) b (by simp [(mem_sSort le).1 hb]) c (by simp [(mem_sSort le).1 hc])

theorem filter_sInsert (p : α → Bool) {a : α} {l : List α}
    (hp : ∀ b ∈ l, p a = true → p b = true → le a b = true) :
    (sInsert le a l).filter p = if p a then a :: l.filter p else l.filter p := by
  induction l with
  | nil => cases hpa : p a <;> simp [sInsert, List.filter, hpa]
  | cons b l ih =>
    have ih' := ih (fun c hc => hp c (by simp [hc]))
    simp only [sInsert]
    split
    next hab =>
      cases hpa : p a <;> simp [List.filter_cons, hpa]
    next hab =>
      cases hpa : p a with
      | true =>
        have hpb : p b = false := by
          cases hpb : p b
          · rfl
          · exact absurd (hp b (by simp) hpa hpb) hab
        rw [if_pos hpa] at ih'
        simp [List.filter_cons, hpb, hpa, ih']
      | false =>
        rw [if_neg (by simp [hpa])] at ih'
        simp only [List.filter_cons, hpa, if_neg]
        cases hpb : p b <;> simp [hpb, hpa, ih']

theorem filter_sSort (p : α → Bool)
    (hp : ∀ a b : α, p a = true → p b = true → le a b = true)
    (l : List α) : (sSort le l).filter p = l.filter p := by
  induction l with
  | nil => rfl
  | cons a l ih =>
    simp only [sSort]
    rw [filter_sInsert le p (fun b _ => hp a b)]
    cases hpa : p a <;> simp [List.filter_cons, hpa, ih]

end SortLemmas

section ClassifyLemmas

variable (parse : String → Option Int)

theorem classifyGo_idx_ge : ∀ (es : List RawEntry) (seen : List String) (i : Nat),
    ∀ x ∈ classifyGo parse seen i es, i ≤ itemIdx x := by
  intro es
  induction es with
  | nil => intro seen i x hx; simp [classifyGo] at hx
  | cons e rest ih =>
    intro seen i x hx
    simp only [classifyGo] at hx
    split at hx
    · rcases List.mem_cons.1 hx with rfl | hx'
      · exact Nat.le_refl _
      · exact Nat.le_of_succ_le (ih _ _ x hx')
    · split at hx
      · split at hx
        · exact Nat.le_of_succ_le (ih _ _ x hx)
        · rcases List.mem_cons.1 hx with rfl | hx'
          · exact Nat.le_refl _
          · exact Nat.le_of_succ_le (ih _ _ x hx')
      · exact Nat.le_of_succ_le (ih _ _ x hx)

theorem classifyGo_pairwise : ∀ (es : List RawEntry) (seen : List String) (i : Nat),
    (classifyGo parse seen i es).Pairwise (fun a b => itemIdx a < itemIdx b) := by
  intro es
  induction es with
  | nil => intro seen i; simp [classifyGo]
  | cons e rest ih =>
    intro seen i
    simp only [classifyGo]
    split
    · refine List.pairwise_cons.2 ⟨?_, ih _ _⟩
      intro y hy
      exact Nat.lt_of_lt_of_le (Nat.lt_succ_self i) (classifyGo_idx_ge parse _ _ _ y hy)
    · split
      · split
        · exact ih _ _
        · refine List.pairwise_cons.2 ⟨?_, ih _ _⟩
          intro y hy
          exact Nat.lt_of_lt_of_le (Nat.lt_succ_self i) (classifyGo_idx_ge parse _ _ _ y hy)
      · exact ih _ _

theorem classifyGo_comment_count : ∀ (es : List RawEntry) (seen : List String) (i : Nat),
    (classifyGo parse seen i es).countP isCommentItem =
      (((es.filter candP).map contentKey).toFinset \ seen.toFinset).card := by
  intro es
  induction es with
  | nil => intro seen i; simp [classifyGo]
  | cons e rest ih =>
    intro seen i
    simp only [classifyGo]
    split
    next hcom =>
      have hcand : candP e = false := by simp [candP, hcom]
      simp only [List.filter_cons, hcand, Bool.false_eq_true, if_false]
      simp [List.countP_cons, isCommentItem, ih]
    next hcom =>
      split
      next htext =>
        have hcand : candP e = true := by
          simp only [candP, htext, Bool.and_true, Bool.not_eq_true']
          exact Bool.not_eq_true e.isCommit ▸ Bool.of_not_eq_true hcom
        have hstep : ((e :: rest).filter candP).map contentKey
            = contentKey e :: (rest.filter candP).map contentKey := by
          simp [List.filter_cons, hcand]
        split
        next hseen =>
          rw [ih, hstep, List.toFinset_cons,
            Finset.insert_sdiff_of_mem _ (List.mem_toFinset.2 hseen)]
        next hseen =>
          have hkS : contentKey e ∉ seen.toFinset := fun h => hseen (List.mem_toFinset.1 h)
          have hcount : (Item.comment (mkComment parse e i) ::
              classifyGo parse (contentKey e :: seen) (i + 1) rest).countP isCommentItem
              = (classifyGo parse (contentKey e :: seen) (i + 1) rest).countP isCommentItem + 1 := by
            simp [List.countP_cons, isCommentItem]
          rw [hcount, ih, hstep, List.toFinset_cons, List.toFinset_cons,
            Finset.insert_sdiff_of_not_mem _ hkS, Finset.sdiff_insert]
          calc ((((rest.filter candP).map contentKey).toFinset \ seen.toFinset).erase
                  (contentKey e)).card + 1
              = ((insert (contentKey e)
                  (((rest.filter candP).map contentKey).toFinset \ seen.toFinset)).erase
                  (contentKey e)).card + 1 := by rw [Finset.erase_insert_eq_erase]
            _ = (insert (contentKey e)
                  (((rest.filter candP).map contentKey).toFinset \ seen.toFinset)).card :=
                Finset.card_erase_add_one (Finset.mem_insert_self _ _)
      next htext =>
        have hcand : candP e = false := by simp [candP, htext]
        simp only [List.filter_cons, hcand, Bool.false_eq_true, if_false]
        exact ih _ _

theorem classifyGo_commit_count : ∀ (es : List RawEntry) (seen : List String) (i : Nat),
    (classifyGo parse seen i es).countP isCommitItem = es.countP (fun e => e.isCommit) := by
  intro es
  induction es with
  | nil => intro seen i; simp [classifyGo]
  | cons e rest ih =>
    intro seen i
    simp only [classifyGo]
    split
    next hcom =>
      simp [List.countP_cons, isCommitItem, hcom, ih]
    next hcom =>
      have : e.isCommit = false := Bool.not_eq_true e.isCommit ▸ Bool.of_not_eq_true hcom
      split
      · split
        · simp [List.countP_cons, this, ih]
        · simp [List.countP_cons, isCommitItem, this, ih]
      · simp [List.countP_cons, this, ih]

theorem classifyGo_commit_mem : ∀ (es : List RawEntry) (seen : List String) (i j : Nat)
    (hj : j < es.length), (es.get ⟨j, hj⟩).isCommit = true →
    Item.commit (es.get ⟨j, hj⟩) (i + j) ∈ classifyGo parse seen i es := by
  intro es
  induction es with
  | nil => intro seen i j hj; simp at hj
  | cons e rest ih =>
    intro seen i j hj hcom
    cases j with
    | zero =>
      simp only [List.get] at hcom ⊢
      simp only [classifyGo, hcom, if_pos]
      exact List.mem_cons_self _ _
    | succ j' =>
      simp only [List.get] at hcom ⊢
      have hj' : j' < rest.length := by simpa using Nat.lt_of_succ_lt_succ hj
      have harith : i + (j' + 1) = (i + 1) + j' := by omega
      rw [harith]
      simp only [classifyGo]
      split
      · exact List.mem_cons_of_mem _ (ih _ (i + 1) j' hj' hcom)
      · split
        · split
          · exact ih _ (i + 1) j' hj' hcom
          · exact List.mem_cons_of_mem _ (ih _ (i + 1) j' hj' hcom)
        · exact ih _ (i + 1) j' hj' hcom

theorem classifyGo_comment_src : ∀ (es : List RawEntry) (seen : List String) (i : Nat)
    (c : CommentRec), Item.comment c ∈ classifyGo parse seen i es →
    ∃ j, ∃ hj : j < es.length, c.idx = i + j ∧ (es.get ⟨j, hj⟩).isCommit = false ∧
      hasText (es.get ⟨j, hj⟩) = true ∧ c = mkComment parse (es.get ⟨j, hj⟩) (i + j) := by
  intro es
  induction es with
  | nil => intro seen i c hc; simp [classifyGo] at hc
  | cons e rest ih =>
    intro seen i c hc
    simp only [classifyGo] at hc
    split at hc
    next hcom =>
      rcases List.mem_cons.1 hc with heq | hc'
      · exact absurd heq (by simp)
      · obtain ⟨j, hj, h1, h2, h3, h4⟩ := ih _ _ c hc'
        refine ⟨j + 1, by simpa using Nat.succ_lt_succ hj, by omega, by simpa using h2,
          by simpa using h3, ?_⟩
        rw [show i + (j + 1) = (i + 1) + j by omega]
        exact h4
    next hcom =>
      have hcf : e.isCommit = false := Bool.not_eq_true e.isCommit ▸ Bool.of_not_eq_true hcom
      split at hc
      next htext =>
        split at hc
        next hseen =>
          obtain ⟨j, hj, h1, h2, h3, h4⟩ := ih _ _ c hc
          refine ⟨j + 1, by simpa using Nat.succ_lt_succ hj, by omega, by simpa using h2,
            by simpa using h3, ?_⟩
          rw [show i + (j + 1) = (i + 1) + j by omega]
          exact h4
        next hseen =>
          rcases List.mem_cons.1 hc with heq | hc'
          · refine ⟨0, by simp, ?_, ?_, ?_, ?_⟩
            · have := Item.comment.inj heq
              simp [this, mkComment]
            · simpa using hcf
            · simpa using htext
            · have := Item.comment.inj heq
              simpa [Nat.add_zero] using this
          · obtain ⟨j, hj, h1, h2, h3, h4⟩ := ih _ _ c hc'
            refine ⟨j + 1, by simpa using Nat.succ_lt_succ hj, by omega, by simpa using h2,
              by simpa using h3, ?_⟩
            rw [show i + (j + 1) = (i + 1) + j by omega]
            exact h4
      next htext =>
        obtain ⟨j, hj, h1, h2, h3, h4⟩ := ih _ _ c hc
        refine ⟨j + 1, by simpa using Nat.succ_lt_succ hj, by omega, by simpa using h2,
          by simpa using h3, ?_⟩
        rw [show i + (j + 1) = (i + 1) + j by omega]
        exact h4

theorem classifyGo_all_commit : ∀ (es : List RawEntry) (seen : List String) (i : Nat),
    (∀ e ∈ es, e.isCommit = true) →
    ∀ x ∈ classifyGo parse seen i es, isCommitItem x = true := by
  intro es
  induction es with
  | nil => intro seen i _ x hx; simp [classifyGo] at hx
  | cons e rest ih =>
    intro seen i h x hx
    have hcom : e.isCommit = true := h e (by simp)
    simp only [classifyGo, hcom, if_pos] at hx
    rcases List.mem_cons.1 hx with rfl | hx'
    · rfl
    · exact ih _ _ (fun f hf => h f (by simp [hf])) x hx'

end ClassifyLemmas

section TurnLemmas

theorem mem_skipLead : ∀ {l : List Item} {x : Item}, x ∈ skipLead l → x ∈ l := by
  intro l
  induction l with
  | nil => intro x hx; simp [skipLead] at hx
  | cons y ys ih =>
    intro x hx
    cases y with
    | commit e i =>
      simp only [skipLead] at hx
      exact List.mem_cons_of_mem _ (ih hx)
    | comment c => exact hx

theorem mem_leadCommits : ∀ {l : List Item} {p : RawEntry × Nat},
    p ∈ leadCommits l → Item.commit p.1 p.2 ∈ l := by
  intro l
  induction l with
  | nil => intro p hp; simp [leadCommits] at hp
  | cons y ys ih =>
    intro p hp
    cases y with
    | commit e i =>
      simp only [leadCommits] at hp
      rcases List.mem_cons.1 hp with rfl | hp'
      · exact List.mem_cons_self _ _
      · exact List.mem_cons_of_mem _ (ih hp')
    | comment c => simp [leadCommits] at hp

/-- Run of leading commit items of an item list. -/
def leadItems : List Item → List Item
  | Item.commit e i :: rest => Item.commit e i :: leadItems rest
  | _ => []

theorem leadItems_append_skipLead : ∀ l : List Item, leadItems l ++ skipLead l = l := by
  intro l
  induction l with
  | nil => rfl
  | cons y ys ih =>
    cases y with
    | commit e i => simp [leadItems, skipLead, ih]
    | comment c => simp [leadItems, skipLead]

theorem mem_leadItems_of_leadCommits : ∀ {l : List Item} {p : RawEntry × Nat},
    p ∈ leadCommits l → Item.commit p.1 p.2 ∈ leadItems l := by
  intro l
  induction l with
  | nil => intro p hp; simp [leadCommits] at hp
  | cons y ys ih =>
    intro p hp
    cases y with
    | commit e i =>
      simp only [leadCommits] at hp
      simp only [leadItems]
      rcases List.mem_cons.1 hp with rfl | hp'
      · exact List.mem_cons_self _ _
      · exact List.mem_cons_of_mem _ (ih hp')
    | comment c => simp [leadCommits] at hp

theorem skipLead_sublist : ∀ l : List Item, List.Sublist (skipLead l) l := by
  intro l
  induction l with
  | nil => exact List.Sublist.refl _
  | cons y ys ih =>
    cases y with
    | commit e i =>
      refine List.Sublist.trans ?_ (List.sublist_cons_self _ _)
      simpa [skipLead] using ih
    | comment c => exact List.Sublist.refl _

theorem turnsOf_comment_mem : ∀ (l : List Item) (T : Turn),
    T ∈ turnsOf l → Item.comment T.c ∈ l := by
  intro l
  induction l using turnsOf.induct with
  | case1 => intro T hT; simp [turnsOf] at hT
  | case2 e i rest ih =>
    intro T hT
    simp only [turnsOf] at hT
    exact List.mem_cons_of_mem _ (ih T hT)
  | case3 c rest ih =>
    intro T hT
    simp only [turnsOf] at hT
    rcases List.mem_cons.1 hT with rfl | hT'
    · exact List.mem_cons_self _ _
    · exact List.mem_cons_of_mem _ (mem_skipLead (ih T hT'))

theorem turnsOf_commits_mem : ∀ (l : List Item) (T : Turn), T ∈ turnsOf l →
    ∀ p ∈ T.commits, Item.commit p.1 p.2 ∈ l := by
  intro l
  induction l using turnsOf.induct with
  | case1 => intro T hT; simp [turnsOf] at hT
  | case2 e i rest ih =>
    intro T hT p hp
    simp only [turnsOf] at hT
    exact List.mem_cons_of_mem _ (ih T hT p hp)
  | case3 c rest ih =>
    intro T hT p hp
    simp only [turnsOf] at hT
    rcases List.mem_cons.1 hT with rfl | hT'
    · exact List.mem_cons_of_mem _ (mem_leadCommits hp)
    · exact List.mem_cons_of_mem _ (mem_skipLead (ih T hT' p hp))

theorem turnsOf_commits_after : ∀ (l : List Item),
    l.Pairwise (fun a b => itemIdx a < itemIdx b) →
    ∀ T ∈ turnsOf l, ∀ p ∈ T.commits, T.c.idx < p.2 := by
  intro l
  induction l using turnsOf.induct with
  | case1 => intro _ T hT; simp [turnsOf] at hT
  | case2 e i rest ih =>
    intro hpw T hT p hp
    simp only [turnsOf] at hT
    exact ih (List.pairwise_cons.1 hpw).2 T hT p hp
  | case3 c rest ih =>
    intro hpw T hT p hp
    obtain ⟨hhead, htail⟩ := List.pairwise_cons.1 hpw
    simp only [turnsOf] at hT
    rcases List.mem_cons.1 hT with rfl | hT'
    · exact hhead _ (mem_leadCommits hp)
    · exact ih (htail.sublist (skipLead_sublist rest)) T hT' p hp

theorem turnsOf_commits_sorted : ∀ (l : List Item),
    l.Pairwise (fun a b => itemIdx a < itemIdx b) →
    ∀ T ∈ turnsOf l, List.Chain' (· < ·) (T.commits.map Prod.snd) := by
  intro l
  induction l using turnsOf.induct with
  | case1 => intro _ T hT; simp [turnsOf] at hT
  | case2 e i rest ih =>
    intro hpw T hT
    simp only [turnsOf] at hT
    exact ih (List.pairwise_cons.1 hpw).2 T hT
  | case3 c rest ih =>
    intro hpw T hT
    obtain ⟨hhead, htail⟩ := List.pairwise_cons.1 hpw
    simp only [turnsOf] at hT
    rcases List.mem_cons.1 hT with rfl | hT'
    · clear hhead ih hT hpw
      induction rest with
      | nil => simp [leadCommits]
      | cons y ys ihy =>
        cases y with
        | commit e i =>
          obtain ⟨hh, ht⟩ := List.pairwise_cons.1 htail
          simp only [leadCommits, List.map_cons]
          refine List.chain'_cons'.2 ⟨?_, by simpa using ihy ht⟩
          intro q hq
          have hq' : q ∈ ((leadCommits ys).map Prod.snd).head? := hq
          obtain ⟨pq, hpq, rfl⟩ := List.mem_map.1 (List.mem_of_mem_head? hq')
          exact hh _ (mem_leadCommits hpq)
        | comment c2 => simp [leadCommits]
    · exact ih (htail.sublist (skipLead_sublist rest)) T hT'

theorem turnsOf_chain : ∀ (l : List Item),
    l.Pairwise (fun a b => itemIdx a < itemIdx b) →
    List.Chain' (fun T T' => ∀ p ∈ T.commits, p.2 < T'.c.idx) (turnsOf l) := by
  intro l
  induction l using turnsOf.induct with
  | case1 => intro _; simp [turnsOf]
  | case2 e i rest ih =>
    intro hpw
    simp only [turnsOf]
    exact ih (List.pairwise_cons.1 hpw).2
  | case3 c rest ih =>
    intro hpw
    obtain ⟨hhead, htail⟩ := List.pairwise_cons.1 hpw
    simp only [turnsOf]
    refine List.chain'_cons'.2 ⟨?_, ih (htail.sublist (skipLead_sublist rest))⟩
    intro T' hT' p hp
    have hT'mem : T' ∈ turnsOf (skipLead rest) := List.mem_of_mem_head? hT'
    have hcmem : Item.comment T'.c ∈ skipLead rest := turnsOf_comment_mem _ _ hT'mem
    have hpmem : Item.commit p.1 p.2 ∈ leadItems rest := mem_leadItems_of_leadCommits hp
    have hdecomp := leadItems_append_skipLead rest
    rw [← hdecomp] at htail
    have := (List.pairwise_append.1 htail).2.2
    exact this _ hpmem _ hcmem

theorem buildTurnsGo_acc : ∀ (items : List Item) (t : Turn) (ts : List Turn),
    buildTurnsGo (t :: ts) items =
      ts.reverse ++ (⟨t.c, t.commits ++ leadCommits items⟩ :: turnsOf (skipLead items)) := by
  intro items
  induction items with
  | nil =>
    intro t ts
    simp [buildTurnsGo, leadCommits, skipLead, turnsOf]
  | cons x rest ih =>
    intro t ts
    cases x with
    | comment c =>
      show buildTurnsGo (⟨c, []⟩ :: t :: ts) rest = _
      rw [ih]
      simp [leadCommits, skipLead, turnsOf, List.reverse_cons, List.append_assoc]
    | commit e i =>
      show buildTurnsGo (⟨t.c, t.commits ++ [(e, i)]⟩ :: ts) rest = _
      rw [ih]
      simp [leadCommits, skipLead, List.append_assoc]

theorem buildTurns_eq_turnsOf : ∀ items : List Item, buildTurns items = turnsOf items := by
  intro items
  induction items with
  | nil => simp [buildTurns, buildTurnsGo, turnsOf]
  | cons x rest ih =>
    cases x with
    | commit e i =>
      show buildTurnsGo [] rest = _
      simpa [turnsOf] using ih
    | comment c =>
      show buildTurnsGo [⟨c, []⟩] rest = _
      rw [buildTurnsGo_acc]
      simp [turnsOf]

theorem buildTurnsGo_all_commit : ∀ (items : List Item),
    (∀ x ∈ items, isCommitItem x = true) → buildTurnsGo [] items = [] := by
  intro items
  induction items with
  | nil => intro _; rfl
  | cons x rest ih =>
    intro h
    cases x with
    | commit e i =>
      show buildTurnsGo [] rest = []
      exact ih (fun y hy => h y (by simp [hy]))
    | comment c =>
      have := h (Item.comment c) (by simp)
      simp [isCommentItem, isCommitItem] at this

end TurnLemmas

/-- Reduction of `formatTimeAgo` on a valid non-epoch date to its range
cascade. -/
theorem formatTimeAgo_some (now t : Int) (h0 : t ≠ 0) :
    formatTimeAgo now (some t) =
      (if Int.fdiv (now - t) 60000 < 1 then RenderedTime.justNow
       else if Int.fdiv (now - t) 60000 < 60 then RenderedTime.minsAgo (Int.fdiv (now - t) 60000)
       else if Int.fdiv (now - t) 3600000 < 24 then
         RenderedTime.hoursAgo (Int.fdiv (now - t) 3600000)
       else if Int.fdiv (now - t) 86400000 < 7 then
         RenderedTime.daysAgo (Int.fdiv (now - t) 86400000)
       else RenderedTime.localeDate (some t)) := by
  simp [formatTimeAgo, h0]

/-- C1 counterexample: a present-but-unparsable timestamp string
(`"N/A"`) does not yield the epoch-zero sentinel — the parsed date is
the Invalid Date (`none`), and the rendered relative time is the
invalid-date locale string, not the empty string; so the claim fails at
this input. -/
theorem c1_counterexample :
    Item.comment (mkComment parseNone entNA 0) ∈ classify parseNone [entNA] ∧
    (mkComment parseNone entNA 0).date ≠ some 0 ∧
    formatTimeAgo 1700000000000 (mkComment parseNone entNA 0).date ≠ RenderedTime.blank := by
  decide

/-- C1 (amended): when the timestamp element is present but its time
text fails to parse, the Turn's date is the invalid-date value (`none`),
not epoch zero; the sort comparator treats it as a tie (0) against every
other date, and it renders as the locale invalid-date string, never the
empty string.  The epoch-zero sentinel (which sorts last and renders
blank) arises exactly when the timestamp element is absent. -/
theorem c1_invalid_date (parse : String → Option Int) (now : Int) (e e' : RawEntry)
    (ht : e.time.isSome = true) (hp : parse (timeTextOf e) = none) (ht' : e'.time = none) :
    dateOf parse e = none ∧
    formatTimeAgo now (dateOf parse e) = RenderedTime.localeDate none ∧
    (∀ d : Option Int, jsCmp (dateOf parse e) d = 0 ∧ jsCmp d (dateOf parse e) = 0) ∧
    dateOf parse e' = some 0 ∧
    formatTimeAgo now (dateOf parse e') = RenderedTime.blank := by
  obtain ⟨tl, htl⟩ := Option.isSome_iff_exists.1 ht
  have hd : dateOf parse e = none := by simp [dateOf, htl, hp]
  refine ⟨hd, by rw [hd]; rfl, ?_, ?_, ?_⟩
  · intro d
    rw [hd]
    cases d <;> simp [jsCmp]
  · simp [dateOf, ht']
  · simp [dateOf, ht', formatTimeAgo]

/-- C1 witness: the amended statement instantiated at `entNA` (time text
`"N/A"`, unparsable) and `entNoTime` (no timestamp element). -/
theorem c1_invalid_date_witness :
    entNA.time.isSome = true ∧ parseNone (timeTextOf entNA) = none ∧ entNoTime.time = none ∧
    (dateOf parseNone entNA = none ∧
      formatTimeAgo 123 (dateOf parseNone entNA) = RenderedTime.localeDate none ∧
      (∀ d : Option Int, jsCmp (dateOf parseNone entNA) d = 0 ∧
        jsCmp d (dateOf parseNone entNA) = 0) ∧
      dateOf parseNone entNoTime = some 0 ∧
      formatTimeAgo 123 (dateOf parseNone entNoTime) = RenderedTime.blank) :=
  ⟨by decide, by decide, by decide,
    c1_invalid_date parseNone 123 entNA entNoTime (by decide) (by decide) (by decide)⟩

/-- C2: in the built Turn list, every attached commit lies strictly
after its Turn's comment in page order, strictly before the next
surviving comment (chain over consecutive Turns), attached commits keep
encounter order, every attached commit is a commit item of the
classified sequence, and every attached commit has a surviving comment
before it (so a commit with no preceding surviving comment is attached
to no Turn). -/
theorem c2_commit_attachment (parse : String → Option Int) (es : List RawEntry) :
    (∀ T ∈ buildTurns (classify parse es), ∀ p ∈ T.commits, T.c.idx < p.2) ∧
    List.Chain' (fun T T' => ∀ p ∈ T.commits, p.2 < T'.c.idx)
      (buildTurns (classify parse es)) ∧
    (∀ T ∈ buildTurns (classify parse es), List.Chain' (· < ·) (T.commits.map Prod.snd)) ∧
    (∀ T ∈ buildTurns (classify parse es), ∀ p ∈ T.commits,
      Item.commit p.1 p.2 ∈ classify parse es) ∧
    (∀ T ∈ buildTurns (classify parse es), ∀ p ∈ T.commits,
      ∃ T', T' ∈ buildTurns (classify parse es) ∧ T'.c.idx < p.2) := by
  have hpw := classifyGo_pairwise parse es [] 0
  rw [buildTurns_eq_turnsOf]
  refine ⟨turnsOf_commits_after _ hpw, turnsOf_chain _ hpw, turnsOf_commits_sorted _ hpw,
    fun T hT p hp => turnsOf_commits_mem _ T hT p hp, ?_⟩
  intro T hT p hp
  exact ⟨T, hT, turnsOf_commits_after _ hpw T hT p hp⟩

/-- C2 witness: in `[entA, entC, entB]` the commit `entC` (position 1)
is attached to the alice Turn (position 0), and `0 < 1`. -/
theorem c2_commit_attachment_witness :
    Turn.mk (mkComment parseW entA 0) [(entC, 1)] ∈
      buildTurns (classify parseW [entA, entC, entB]) ∧
    (entC, 1) ∈ (Turn.mk (mkComment parseW entA 0) [(entC, 1)]).commits ∧
    (Turn.mk (mkComment parseW entA 0) [(entC, 1)]).c.idx < 1 := by
  refine ⟨by decide, by decide, ?_⟩
  exact (c2_commit_attachment parseW [entA, entC, entB]).1
    (Turn.mk (mkComment parseW entA 0) [(entC, 1)]) (by decide) (entC, 1) (by decide)

/-- C3 counterexample: two comment entries with distinct fingerprint
triples (author, raw timestamp, body prefix) can collide in the
concatenated dedup key (`"x-" / "" / "y"` and `"x" / "" / "-y"` both
give `x---y`), so only one survives although there are two distinct
triples; the claim's "exactly the number of distinct Fingerprints
(triples)" fails at this input. -/
theorem c3_counterexample :
    (classify parseNone [entKa, entKb]).countP isCommentItem = 1 ∧
    (([entKa, entKb].filter candP).map fpTriple).toFinset.card = 2 := by
  decide

/-- C3 (amended): the number of surviving comment items equals the
number of distinct concatenated fingerprint key strings
(`author + "-" + timestamp + "-" + first-100-unit body prefix`), is at
most the number of comment candidates before deduplication, commit
entries are never deduplicated (their count is preserved), and the
surviving items keep strictly increasing page order. -/
theorem c3_dedup_count (parse : String → Option Int) (es : List RawEntry) :
    (classify parse es).countP isCommentItem =
      ((es.filter candP).map contentKey).toFinset.card ∧
    (classify parse es).countP isCommentItem ≤ (es.filter candP).length ∧
    (classify parse es).countP isCommitItem = es.countP (fun e => e.isCommit) ∧
    (classify parse es).Pairwise (fun a b => itemIdx a < itemIdx b) := by
  have h1 := classifyGo_comment_count parse es [] 0
  simp only [List.toFinset_nil, Finset.sdiff_empty] at h1
  refine ⟨h1, ?_, classifyGo_commit_count parse es [] 0, classifyGo_pairwise parse es [] 0⟩
  calc (classify parse es).countP isCommentItem
      = ((es.filter candP).map contentKey).toFinset.card := h1
    _ ≤ ((es.filter candP).map contentKey).length := List.toFinset_card_le _
    _ = (es.filter candP).length := by simp

/-- C4: when every Turn's parsed timestamp is valid, the presented Turn
list is sorted by date descending (newest first), and for every date
value the Turns carrying it appear in exactly their pre-sort (original
page) order — the sort is stable.  (When an unparsable timestamp is
present the host comparator is inconsistent, ECMAScript leaves the
order implementation-defined, and the validity hypothesis excludes that
case; the stability clause holds unconditionally.) -/
theorem c4_sorted_stable (parse : String → Option Int) (es : List RawEntry)
    (hv : ∀ T ∈ pipelineTurns parse es, T.c.date.isSome = true) :
    (pipelineTurns parse es).Pairwise
      (fun a b => ∀ x y : Int, a.c.date = some x → b.c.date = some y → y ≤ x) ∧
    ∀ d : Option Int,
      (pipelineTurns parse es).filter (fun T => decide (T.c.date = d)) =
        (buildTurns (classify parse es)).filter (fun T => decide (T.c.date = d)) := by
  constructor
  · have hv' : ∀ T ∈ buildTurns (classify parse es), T.c.date.isSome = true := by
      intro T hT
      exact hv T ((mem_sSort turnLe).2 hT)
    have htot : ∀ a ∈ buildTurns (classify parse es), ∀ b ∈ buildTurns (classify parse es),
        turnLe a b = true ∨ turnLe b a = true := by
      intro a ha b hb
      obtain ⟨x, hx⟩ := Option.isSome_iff_exists.1 (hv' a ha)
      obtain ⟨y, hy⟩ := Option.isSome_iff_exists.1 (hv' b hb)
      simp only [turnLe, jsCmp, hx, hy, decide_eq_true_eq]
      omega
    have htr : ∀ a ∈ buildTurns (classify parse es), ∀ b ∈ buildTurns (classify parse es),
        ∀ c ∈ buildTurns (classify parse es),
        turnLe a b = true → turnLe b c = true → turnLe a c = true := by
      intro a ha b hb c hc
      obtain ⟨x, hx⟩ := Option.isSome_iff_exists.1 (hv' a ha)
      obtain ⟨y, hy⟩ := Option.isSome_iff_exists.1 (hv' b hb)
      obtain ⟨z, hz⟩ := Option.isSome_iff_exists.1 (hv' c hc)
      simp only [turnLe, jsCmp, hx, hy, hz, decide_eq_true_eq]
      omega
    have hpw := pairwise_sSort turnLe htot htr
    refine hpw.imp ?_
    intro a b hab x y hx hy
    simp only [turnLe, jsCmp, hx, hy, decide_eq_true_eq] at hab
    omega
  · intro d
    refine filter_sSort turnLe _ ?_ _
    intro a b ha hb
    have ha' := of_decide_eq_true ha
    have hb' := of_decide_eq_true hb
    rw [turnLe, ha', hb']
    cases d with
    | none => simp [jsCmp]
    | some v => simp [jsCmp]

/-- C4 witness: three comments, two of them sharing timestamp `"A"`;
all dates valid, so the sorted list is descending and the equal-date
pair keeps its original order. -/
theorem c4_sorted_stable_witness :
    (∀ T ∈ pipelineTurns parseW [entA, entA2, entB], T.c.date.isSome = true) ∧
    ((pipelineTurns parseW [entA, entA2, entB]).Pairwise
      (fun a b => ∀ x y : Int, a.c.date = some x → b.c.date = some y → y ≤ x) ∧
    ∀ d : Option Int,
      (pipelineTurns parseW [entA, entA2, entB]).filter (fun T => decide (T.c.date = d)) =
        (buildTurns (classify parseW [entA, entA2, entB])).filter
          (fun T => decide (T.c.date = d))) :=
  ⟨by decide, c4_sorted_stable parseW [entA, entA2, entB] (by decide)⟩

/-- C5 counterexample: a body that ends with (hence contains) the raw
marker-family member `🤖 *agenthelper*`, on an item with no
`.comment-body` innerHTML, does not set the is-automated flag and keeps
the page author (`"alice"`), contradicting the claim for that family
member. -/
theorem c5_counterexample :
    jsEndsWith (bodyTextOf entStar) "🤖 *agenthelper*" = true ∧
    jsIncludes (bodyTextOf entStar) "🤖 *agenthelper*" = true ∧
    isFromAgenthelperOf entStar = false ∧
    (mkComment parseNone entStar 0).author = "alice" ∧
    (mkComment parseNone entStar 0).isBot = false ∧
    Item.comment (mkComment parseNone entStar 0) ∈ classify parseNone [entStar] := by
  decide

/-- C5 (amended): the signature signals that actually fire are — body
ends with the literal `agenthelper`, body contains the rendered marker
`🤖 agenthelper`, or the `.comment-body` innerHTML contains
`agenthelper`; each forces the is-automated flag and the display
override to `"agenthelper"`.  The bot-substring author signal alone
sets is-automated without overriding the displayed author.  (The raw
form `🤖 *agenthelper*` inside the body text does not fire by itself —
see the counterexample.) -/
theorem c5_signature (e : RawEntry) :
    (jsIncludes (bodyTextOf e) "🤖 agenthelper" = true →
      isFromAgenthelperOf e = true ∧ displayAuthorOf e = "agenthelper") ∧
    (jsEndsWith (bodyTextOf e) "agenthelper" = true →
      isFromAgenthelperOf e = true ∧ displayAuthorOf e = "agenthelper") ∧
    (∀ h : String, e.commentHTML = some h → jsIncludes h "agenthelper" = true →
      isFromAgenthelperOf e = true ∧ displayAuthorOf e = "agenthelper") ∧
    (isFromAgenthelperOf e = false → isBotCommentOf e = true →
      (isBotCommentOf e || isFromAgenthelperOf e) = true ∧
      displayAuthorOf e = rawAuthorDisplay e) := by
  refine ⟨?_, ?_, ?_, ?_⟩
  · intro h
    have hf : isFromAgenthelperOf e = true := by simp [isFromAgenthelperOf, h]
    exact ⟨hf, by simp [displayAuthorOf, hf]⟩
  · intro h
    have hf : isFromAgenthelperOf e = true := by simp [isFromAgenthelperOf, h]
    exact ⟨hf, by simp [displayAuthorOf, hf]⟩
  · intro h hh hinc
    have hf : isFromAgenthelperOf e = true := by simp [isFromAgenthelperOf, hh, hinc]
    exact ⟨hf, by simp [displayAuthorOf, hf]⟩
  · intro hf hb
    exact ⟨by simp [hb], by simp [displayAuthorOf, hf]⟩

/-- C5 witness: the rendered marker fires (flag set, author overridden)
on `entSig`; the bot-name signal alone fires without an override on
`entBot`. -/
theorem c5_signature_witness :
    jsIncludes (bodyTextOf entSig) "🤖 agenthelper" = true ∧
    (isFromAgenthelperOf entSig = true ∧ displayAuthorOf entSig = "agenthelper") ∧
    isFromAgenthelperOf entBot = false ∧ isBotCommentOf entBot = true ∧
    ((isBotCommentOf entBot || isFromAgenthelperOf entBot) = true ∧
      displayAuthorOf entBot = rawAuthorDisplay entBot) := by
  refine ⟨by decide, (c5_signature entSig).1 (by decide), by decide, by decide, ?_⟩
  exact (c5_signature entBot).2.2.2 (by decide) (by decide)

/-- C6: for a valid non-epoch timestamp not after `now`, the humanizer
returns `just now` under one minute, `n`m ago under an hour, `n`h ago
under a day, `n`d ago under seven days, and the absolute locale date
otherwise; the epoch-zero sentinel always renders as the empty string,
bypassing the cascade. -/
theorem c6_time_humanize (t now : Int) (h0 : t ≠ 0) (hle : t ≤ now) :
    (now - t < 60000 → formatTimeAgo now (some t) = RenderedTime.justNow) ∧
    (60000 ≤ now - t → now - t < 3600000 →
      formatTimeAgo now (some t) = RenderedTime.minsAgo (Int.fdiv (now - t) 60000)) ∧
    (3600000 ≤ now - t → now - t < 86400000 →
      formatTimeAgo now (some t) = RenderedTime.hoursAgo (Int.fdiv (now - t) 3600000)) ∧
    (86400000 ≤ now - t → now - t < 604800000 →
      formatTimeAgo now (some t) = RenderedTime.daysAgo (Int.fdiv (now - t) 86400000)) ∧
    (604800000 ≤ now - t → formatTimeAgo now (some t) = RenderedTime.localeDate (some t)) ∧
    (∀ m : Int, formatTimeAgo m (some 0) = RenderedTime.blank) := by
  have hf1 : Int.fdiv (now - t) 60000 = (now - t) / 60000 := Int.fdiv_eq_ediv _ (by norm_num)
  have hf2 : Int.fdiv (now - t) 3600000 = (now - t) / 3600000 :=
    Int.fdiv_eq_ediv _ (by norm_num)
  have hf3 : Int.fdiv (now - t) 86400000 = (now - t) / 86400000 :=
    Int.fdiv_eq_ediv _ (by norm_num)
  refine ⟨?_, ?_, ?_, ?_, ?_, fun m => by simp [formatTimeAgo]⟩
  · intro h
    rw [formatTimeAgo_some now t h0, hf1, if_pos (by omega)]
  · intro h1 h2
    rw [formatTimeAgo_some now t h0, hf1, if_neg (by omega), if_pos (by omega)]
  · intro h1 h2
    rw [formatTimeAgo_some now t h0, hf1, hf2, if_neg (by omega), if_neg (by omega),
      if_pos (by omega)]
  · intro h1 h2
    rw [formatTimeAgo_some now t h0, hf1, hf2, hf3, if_neg (by omega), if_neg (by omega),
      if_neg (by omega), if_pos (by omega)]
  · intro h
    rw [formatTimeAgo_some now t h0, hf1, hf2, hf3, if_neg (by omega), if_neg (by omega),
      if_neg (by omega), if_neg (by omega)]

/-- C6 witness: a timestamp 29999 ms before `now` renders `just now`. -/
theorem c6_time_humanize_witness : formatTimeAgo 30000 (some 1) = RenderedTime.justNow :=
  (c6_time_humanize 1 30000 (by decide) (by decide)).1 (by decide)

/-- C7: the view toggle never touches the discussion content, the
active tab, or the saved display value, and from any state reached by
toggling any number of times after a reconstruction, two further
toggles restore the state exactly — so simplified→original→simplified
is a lossless round trip, any number of times. -/
theorem c7_toggle_roundtrip (content prev : String) (tab n : Nat) :
    (∀ s : ViewState, (toggleView s).discussionContent = s.discussionContent ∧
      (toggleView s).activeTab = s.activeTab ∧ (toggleView s).savedDisplay = s.savedDisplay) ∧
    toggleView (toggleView (toggleView^[n] (reconState content prev tab))) =
      toggleView^[n] (reconState content prev tab) := by
  constructor
  · intro s
    by_cases h : s.isSimplified <;> simp [toggleView, h]
  · induction n with
    | zero => rfl
    | succ k ih =>
      rw [Function.iterate_succ_apply']
      exact congrArg toggleView ih

/-- C8: a timeline of commit-events only produces an empty Turn list,
no tab buttons, no panels, and the `No comments yet` placeholder. -/
theorem c8_no_comments (parse : String → Option Int) (now : Int) (es : List RawEntry)
    (h : ∀ e ∈ es, e.isCommit = true) :
    pipelineTurns parse es = [] ∧
    (renderPR parse now es).tabs = [] ∧
    (renderPR parse now es).panels = [] ∧
    (renderPR parse now es).placeholder = some "No comments yet" := by
  have hall := classifyGo_all_commit parse es [] 0 h
  have hturns : buildTurns (classify parse es) = [] := buildTurnsGo_all_commit _ hall
  have hpipe : pipelineTurns parse es = [] := by
    simp only [pipelineTurns, hturns]
    rfl
  refine ⟨hpipe, ?_, ?_, ?_⟩ <;> simp [renderPR, renderView, hpipe]

/-- C8 witness: the single-commit timeline `[entC]`. -/
theorem c8_no_comments_witness :
    (∀ e ∈ [entC], e.isCommit = true) ∧
    pipelineTurns parseW [entC] = [] ∧
    (renderPR parseW 5000 [entC]).tabs = [] ∧
    (renderPR parseW 5000 [entC]).placeholder = some "No comments yet" := by
  refine ⟨by decide, (c8_no_comments parseW 5000 [entC] (by decide)).1,
    (c8_no_comments parseW 5000 [entC] (by decide)).2.1,
    (c8_no_comments parseW 5000 [entC] (by decide)).2.2.2⟩

/-- C9: an entry that structurally matches the commit marker is
classified as a commit item even when it carries non-empty body text:
it appears as a commit at its position, no comment item carries its
position (so it is never deduplicated by the comment key), and no Turn
is started by it. -/
theorem c9_commit_precedence (parse : String → Option Int) (es : List RawEntry) (i : Nat)
    (hi : i < es.length) (hc : (es.get ⟨i, hi⟩).isCommit = true)
    (hb : hasText (es.get ⟨i, hi⟩) = true) :
    Item.commit (es.get ⟨i, hi⟩) i ∈ classify parse es ∧
    (∀ c : CommentRec, Item.comment c ∈ classify parse es → c.idx ≠ i) ∧
    (∀ T ∈ buildTurns (classify parse es), T.c.idx ≠ i) := by
  have h1 := classifyGo_commit_mem parse es [] 0 i hi hc
  rw [Nat.zero_add] at h1
  have h2 : ∀ c : CommentRec, Item.comment c ∈ classify parse es → c.idx ≠ i := by
    intro c hcm hidx
    obtain ⟨j, hj, hjidx, hjcom, _, _⟩ := classifyGo_comment_src parse es [] 0 c hcm
    rw [Nat.zero_add] at hjidx
    have hji : j = i := by omega
    subst hji
    have hcontr : (es.get ⟨j, hj⟩).isCommit = true := hc
    rw [hjcom] at hcontr
    exact Bool.noConfusion hcontr
  refine ⟨h1, h2, ?_⟩
  intro T hT
  rw [buildTurns_eq_turnsOf] at hT
  exact h2 T.c (turnsOf_comment_mem _ T hT)

/-- C9 witness: `entCb` (commit marker plus body text) at position 1. -/
theorem c9_commit_precedence_witness :
    ([entA, entCb].get ⟨1, by decide⟩).isCommit = true ∧
    hasText ([entA, entCb].get ⟨1, by decide⟩) = true ∧
    Item.commit ([entA, entCb].get ⟨1, by decide⟩) 1 ∈ classify parseW [entA, entCb] := by
  refine ⟨by decide, by decide, ?_⟩
  exact (c9_commit_precedence parseW [entA, entCb] 1 (by decide) (by decide) (by decide)).1

/-- C10: the dedup key is computed from the raw page author, before the
agenthelper display override — it ignores the innerHTML the override
reads, and two renders of the same signed comment with different raw
authors have different keys, so both survive and both display as
`"agenthelper"`. -/
theorem c10_key_before_override (parse : String → Option Int) (e1 e2 : RawEntry)
    (h1c : e1.isCommit = false) (h2c : e2.isCommit = false)
    (hb : e1.body = e2.body) (hbne : hasText e1 = true)
    (ht : timeTextOf e1 = timeTextOf e2)
    (ha : authorKey e1 ≠ authorKey e2)
    (hf1 : isFromAgenthelperOf e1 = true) (hf2 : isFromAgenthelperOf e2 = true) :
    (∀ (f : RawEntry) (x : Option String),
      contentKey { f with commentHTML := x } = contentKey f) ∧
    contentKey e1 ≠ contentKey e2 ∧
    classify parse [e1, e2] =
      [Item.comment (mkComment parse e1 0), Item.comment (mkComment parse e2 1)] ∧
    (mkComment parse e1 0).author = "agenthelper" ∧
    (mkComment parse e2 1).author = "agenthelper" := by
  have hbody : bodyTextOf e1 = bodyTextOf e2 := by simp [bodyTextOf, hb]
  have hkey : contentKey e1 ≠ contentKey e2 := by
    intro hk
    apply ha
    have hdata := congrArg String.data hk
    simp only [contentKey, String.data_append, ht, hbody, List.append_assoc] at hdata
    exact String.ext (List.append_cancel_right hdata)
  have hhas2 : hasText e2 = true := by
    rw [← hbne]
    simp [hasText, hb]
  have hkey' : ¬ contentKey e2 = contentKey e1 := fun h => hkey h.symm
  refine ⟨fun f x => rfl, hkey, ?_, ?_, ?_⟩
  · simp [classify, classifyGo, h1c, h2c, hbne, hhas2, hkey', List.mem_singleton]
  · simp [mkComment, displayAuthorOf, hf1]
  · simp [mkComment, displayAuthorOf, hf2]

/-- C10 witness: the same signed body attributed to alice and to bob —
distinct keys, both kept, both displayed as `agenthelper`. -/
theorem c10_key_before_override_witness :
    authorKey entSig ≠ authorKey entSigB ∧
    classify parseW [entSig, entSigB] =
      [Item.comment (mkComment parseW entSig 0), Item.comment (mkComment parseW entSigB 1)] ∧
    (mkComment parseW entSig 0).author = "agenthelper" ∧
    (mkComment parseW entSigB 1).author = "agenthelper" := by
  have h := c10_key_before_override parseW entSig entSigB (by decide) (by decide) (by decide)
    (by decide) (by decide) (by decide) (by decide) (by decide)
  exact ⟨by decide, h.2.2.1, h.2.2.2.1, h.2.2.2.2⟩

end PRS
